import Mathlib

/-!
Verification of the per-file line-origin attribution engine
(`src/lib/src/annotate.rs` of the repository under study).

The engine is embedded shallowly:

* byte buffers are `List Nat` (one `Nat` per byte, `10` is the newline);
* `HashMap<usize, usize>` / `HashMap<CommitId, Source>` are association
  lists `List (Nat × _)` with replace-on-insert semantics, which model the
  hash maps as key-value mappings; iteration order questions are treated
  explicitly via permutation lemmas;
* the external collaborators (commit store, revset driver, line diff) are
  parameters: the store is a function `Nat → List Nat` from commit id to
  file content at that commit, the driver is the list of
  `(commit_id, edges)` nodes it yields, in order, and the diff is a
  function producing hunk lists.

All definitions follow the Rust source line by line; names are kept where
Lean allows.
-/

set_option maxHeartbeats 1000000

namespace Annotate

/-! ## Association lists standing in for the source's hash maps -/

/-- Lookup in an association list, `HashMap::get`. -/
def alookup {α : Type} : List (Nat × α) → Nat → Option α
  | [], _ => none
  | e :: rest, k => if e.1 = k then some e.2 else alookup rest k

/-- Remove every binding of key `k`, `HashMap::remove`. -/
def aerase {α : Type} : List (Nat × α) → Nat → List (Nat × α)
  | [], _ => []
  | e :: rest, k => if e.1 = k then aerase rest k else e :: aerase rest k

/-- Replace-or-append insertion, `HashMap::insert` (an existing binding of
the same key is overwritten). -/
def ainsert {α : Type} (m : List (Nat × α)) (k : Nat) (v : α) : List (Nat × α) :=
  aerase m k ++ [(k, v)]

/-! ## Line indexer: `split_inclusive(|b| *b == b'\n')` -/

/-- Newline-inclusive segmentation of a byte buffer, exactly Rust's
`slice::split_inclusive` with a `\n` predicate: each segment ends with the
newline that closed it, except possibly the final segment; the empty
buffer yields no segments. -/
def splitInclusive : List Nat → List (List Nat)
  | [] => []
  | b :: rest =>
    if b = 10 then [10] :: splitInclusive rest
    else
      match splitInclusive rest with
      | [] => [[b]]
      | l :: ls => (b :: l) :: ls

/-! ## The line diff interface (`crate::diff`, an external collaborator) -/

/-- Hunk kinds of the line diff: `DiffHunkKind`. -/
inductive HunkKind : Type
  | matching
  | different
deriving DecidableEq, Repr

/-- One hunk of `Diff::by_line([current, parent])`: `contents[0]` is the
current side, `contents[1]` the parent side. -/
structure DiffHunk : Type where
  kind : HunkKind
  left : List Nat
  right : List Nat
deriving DecidableEq, Repr

/-- Counter walk of `get_same_line_map`: for a matching hunk one pair per
line of the current side is recorded and both counters advance together;
for a different hunk each counter advances by its own side's line count. -/
def same_line_map_go : List DiffHunk → Nat → Nat → List (Nat × Nat)
  | [], _, _ => []
  | h :: rest, ca, cb =>
    match h.kind with
    | HunkKind.matching =>
      let n := (splitInclusive h.left).length
      ((List.range n).map fun k => (ca + k, cb + k)) ++ same_line_map_go rest (ca + n) (cb + n)
    | HunkKind.different =>
      same_line_map_go rest (ca + (splitInclusive h.left).length)
        (cb + (splitInclusive h.right).length)

/-- `get_same_line_map(current_contents, parent_contents)`, applied to the
hunks the external diff produced for the two buffers. The Rust function
stores the pairs in a `HashMap`; since the emitted keys are pairwise
distinct (proved below) the emission-ordered list is the same mapping. -/
def get_same_line_map (hunks : List DiffHunk) : List (Nat × Nat) :=
  same_line_map_go hunks 0 0

/-! ## Source state and the attribution loop -/

/-- `struct Source`: line mapping and file content at a certain commit. -/
structure Source : Type where
  line_map : List (Nat × Nat)
  text : List Nat
deriving DecidableEq, Repr

/-- `type CommitSourceMap = HashMap<CommitId, Source>`. -/
abbrev CSMap := List (Nat × Source)

/-- Edge classification of the revset graph, `GraphEdgeType`. -/
inductive GraphEdgeType : Type
  | direct
  | indirect
  | missing
deriving DecidableEq, Repr

/-- `GraphEdge<CommitId>`. -/
structure GraphEdge : Type where
  target : Nat
  edge_type : GraphEdgeType
deriving DecidableEq, Repr

/-- `get_initial_commit_line_map`: identity `line_map` over the first
`num_lines` lines installed under the starting commit id. -/
def get_initial_commit_line_map (commit_id : Nat) (text : List Nat) (num_lines : Nat) : CSMap :=
  [(commit_id,
    { line_map := (List.range num_lines).foldl (fun m i => ainsert m i i) []
      text := text })]

/-- `mark_lines_from_original`: drain the leftover `line_map` of a commit
into the original line map, attributing each leftover original line to
that commit. -/
def mark_lines_from_original : List (Nat × Nat) → Nat → List (Nat × Nat) → List (Nat × Nat)
  | olm, _, [] => olm
  | olm, cid, e :: rest => mark_lines_from_original (ainsert olm e.2 cid) cid rest

/-- The propagation `for` loop of `process_commit`, iterating the entries
of `same_line_map` in the given order: if the child still holds
`current_line_number`, its original line is removed there and moved to the
parent under `parent_line_number` (a `HashMap::insert`, so a pre-existing
parent binding of that parent line is overwritten). -/
def moveLines : List (Nat × Nat) → List (Nat × Nat) → List (Nat × Nat) →
    List (Nat × Nat) × List (Nat × Nat)
  | [], child, parent => (child, parent)
  | e :: rest, child, parent =>
    match alookup child e.1 with
    | some v => moveLines rest (aerase child e.1) (ainsert parent e.2 v)
    | none => moveLines rest child parent

/-- The parent-edge loop of `process_commit`. The state is the current
commit's remaining `line_map` together with the commit source map (from
which the current commit has already been removed). Missing edges are
skipped; otherwise the parent source is found or loaded, the matcher is
run, lines in common are moved to the parent, and the parent is dropped
when its `line_map` ends up empty. -/
def processEdges (repoText : Nat → List Nat) (dbl : List Nat → List Nat → List DiffHunk)
    (ctext : List Nat) :
    List GraphEdge → List (Nat × Nat) × CSMap → List (Nat × Nat) × CSMap
  | [], st => st
  | edge :: rest, st =>
    if edge.edge_type ≠ GraphEdgeType.missing then
      let parent_source :=
        match alookup st.2 edge.target with
        | some s => s
        | none => { line_map := [], text := repoText edge.target }
      let same := get_same_line_map (dbl ctext parent_source.text)
      let moved := moveLines same st.1 parent_source.line_map
      let csm' :=
        if moved.2 = [] then aerase st.2 edge.target
        else ainsert st.2 edge.target { line_map := moved.2, text := parent_source.text }
      processEdges repoText dbl ctext rest (moved.1, csm')
    else processEdges repoText dbl ctext rest st

/-- `process_commit`: if the current commit carries a source, remove it,
run the parent-edge loop, and attribute all leftover lines to the current
commit. Returns the updated original line map and commit source map. -/
def process_commit (repoText : Nat → List Nat) (dbl : List Nat → List Nat → List DiffHunk)
    (original_line_map : List (Nat × Nat)) (commit_source_map : CSMap)
    (current_id : Nat) (edges : List GraphEdge) : List (Nat × Nat) × CSMap :=
  match alookup commit_source_map current_id with
  | none => (original_line_map, commit_source_map)
  | some current_source =>
    let st := processEdges repoText dbl current_source.text edges
      (current_source.line_map, aerase commit_source_map current_id)
    (mark_lines_from_original original_line_map current_id st.1, st.2)

/-- The node loop of `process_commits`: consume the driver's nodes in
order, stopping as soon as the original line map reaches `num_lines`
entries; when the driver is exhausted the map is returned as is. -/
def process_commits_from (repoText : Nat → List Nat) (dbl : List Nat → List Nat → List DiffHunk) :
    List (Nat × List GraphEdge) → List (Nat × Nat) → CSMap → Nat → List (Nat × Nat)
  | [], olm, _, _ => olm
  | (cid, edges) :: rest, olm, csm, num_lines =>
    let st := process_commit repoText dbl olm csm cid edges
    if num_lines ≤ st.1.length then st.1
    else process_commits_from repoText dbl rest st.1 st.2 num_lines

/-- `convert_to_results`, indexed form: walk the lines of the original
contents pairing each with its attributed commit; a missing attribution is
the `unwrap` panic of the Rust code, modelled as `none`. -/
def convert_to_results (original_line_map : List (Nat × Nat)) :
    Nat → List (List Nat) → Option (List (Nat × List Nat))
  | _, [] => some []
  | idx, line :: rest =>
    match alookup original_line_map idx with
    | none => none
    | some cid => (convert_to_results original_line_map (idx + 1) rest).map
        fun r => (cid, line) :: r

/-- `get_annotation_for_file`, over the abstracted collaborators. The
result value is the `file_annotations` vector; `none` models a panic
inside the call. Backend and revset errors abort the Rust function by
`?`-propagation before any of the logic below runs and are not modelled
here. -/
def get_annotation_for_file (repoText : Nat → List Nat)
    (dbl : List Nat → List Nat → List DiffHunk)
    (nodes : List (Nat × List GraphEdge)) (starting_commit : Nat) :
    Option (List (Nat × List Nat)) :=
  let original_contents := repoText starting_commit
  let num_lines := (splitInclusive original_contents).length
  let commit_source_map :=
    get_initial_commit_line_map starting_commit original_contents num_lines
  let original_line_map :=
    process_commits_from repoText dbl nodes [] commit_source_map num_lines
  convert_to_results original_line_map 0 (splitInclusive original_contents)

/-! ## Concrete inputs used to exercise the engine

The diamond history below is the decisive scenario: commit `A` (id 0) adds
the file as `"q\n"`; commit `B` (id 2, child of `A`) appends a line,
giving `"q\nm\n"`; commit `C` (id 1, child of `A`) prepends a line and
drops nothing, giving `"m\nq\n"`; commit `D` (id 3) merges `B` and `C`
into `"q\nm\nq\n"`.  Bytes: `q` = 113, `m` = 109, newline = 10.  All four
commits modify the file, so the path-filtered revset is all of them and a
reverse-topological driver yields `D` first and `A` last.  The diff hunks
recorded for the four compared pairs are the unique minimal line diffs
(strip the common prefix or suffix), which any line-granularity differ
produces. -/

def tA : List Nat := [113, 10]

def tB : List Nat := [113, 10, 109, 10]

def tC : List Nat := [109, 10, 113, 10]

def tD : List Nat := [113, 10, 109, 10, 113, 10]

def repoDiamond : Nat → List Nat
  | 0 => tA
  | 1 => tC
  | 2 => tB
  | 3 => tD
  | _ => []

def dblDiamond (a b : List Nat) : List DiffHunk :=
  if a = tD ∧ b = tB then
    [⟨HunkKind.matching, [113, 10, 109, 10], [113, 10, 109, 10]⟩,
     ⟨HunkKind.different, [113, 10], []⟩]
  else if a = tD ∧ b = tC then
    [⟨HunkKind.different, [113, 10], []⟩,
     ⟨HunkKind.matching, [109, 10, 113, 10], [109, 10, 113, 10]⟩]
  else if a = tB ∧ b = tA then
    [⟨HunkKind.matching, [113, 10], [113, 10]⟩,
     ⟨HunkKind.different, [109, 10], []⟩]
  else if a = tC ∧ b = tA then
    [⟨HunkKind.different, [109, 10], []⟩,
     ⟨HunkKind.matching, [113, 10], [113, 10]⟩]
  else [⟨HunkKind.different, a, b⟩]

/-- Driver order `D, B, C, A` (one of the two reverse-topological orders). -/
def nodesDBCA : List (Nat × List GraphEdge) :=
  [(3, [⟨2, GraphEdgeType.direct⟩, ⟨1, GraphEdgeType.direct⟩]),
   (2, [⟨0, GraphEdgeType.direct⟩]),
   (1, [⟨0, GraphEdgeType.direct⟩]),
   (0, [⟨9, GraphEdgeType.missing⟩])]

/-- Driver order `D, C, B, A` (the other reverse-topological order). -/
def nodesDCBA : List (Nat × List GraphEdge) :=
  [(3, [⟨2, GraphEdgeType.direct⟩, ⟨1, GraphEdgeType.direct⟩]),
   (1, [⟨0, GraphEdgeType.direct⟩]),
   (2, [⟨0, GraphEdgeType.direct⟩]),
   (0, [⟨9, GraphEdgeType.missing⟩])]

/-- A diff stub matching the two buffers line for line when they are
identical and reporting one all-different hunk otherwise. -/
def dblId (a b : List Nat) : List DiffHunk :=
  if a = b then [⟨HunkKind.matching, a, b⟩] else [⟨HunkKind.different, a, b⟩]

/-- Well-formedness of a hunk list for a buffer pair, the contract the
external line diff provides: the sides concatenate back to the inputs and
matching hunks carry equal content on both sides. -/
def HunksWf (a b : List Nat) (hs : List DiffHunk) : Prop :=
  (hs.map DiffHunk.left).flatten = a ∧ (hs.map DiffHunk.right).flatten = b ∧
    ∀ h ∈ hs, h.kind = HunkKind.matching → h.left = h.right

instance (a b : List Nat) (hs : List DiffHunk) : Decidable (HunksWf a b hs) := by
  unfold HunksWf
  infer_instance

/-- Two-line starting file `"x\ny"` (final line without newline). -/
def repoXY : Nat → List Nat := fun _ => [120, 10, 121]

/-- A driver yielding a single root node whose only parent edge is missing. -/
def nodesSingle : List (Nat × List GraphEdge) := [(5, [⟨9, GraphEdgeType.missing⟩])]

/-! ## The file loader (`get_file_contents`) -/

instance {ε α : Type} [DecidableEq ε] [DecidableEq α] : DecidableEq (Except ε α) := fun x y =>
  match x, y with
  | Except.ok a, Except.ok b =>
    if h : a = b then isTrue (by rw [h]) else isFalse (by intro hc; injection hc; exact h ‹_›)
  | Except.ok _, Except.error _ => isFalse (by intro hc; cases hc)
  | Except.error _, Except.ok _ => isFalse (by intro hc; cases hc)
  | Except.error a, Except.error b =>
    if h : a = b then isTrue (by rw [h]) else isFalse (by intro hc; injection hc; exact h ‹_›)

/-- Outcome of `materialize_tree_value` for a present path value, restricted
to what `get_file_contents` inspects: a regular file whose streamed read
yields bytes or an I/O error; a conflict over file contents whose
conflict-marker materialisation (`materialize_merge_result`, external)
yields bytes or an I/O error, together with the conflict's term ids
(`Merge<Option<FileId>>` in the source); or any other tree value kind. -/
inductive MaterializedTreeValue : Type
  | file (id : Nat) (read_result : Except String (List Nat))
  | fileConflict (ids : List (Option Nat)) (materialize_result : Except String (List Nat))
  | other
deriving DecidableEq, Repr

/-- Error type of the loader; `readFile` is `BackendError::ReadFile` with
its path, object id and wrapped I/O error. -/
inductive BackendError : Type
  | readFile (path : Nat) (id : Nat) (msg : String)
deriving DecidableEq, Repr

/-- `get_file_contents`: `none` for `value` models an absent path (the
`is_absent` branch returning empty bytes). The outer `Option` of the
result models a panic: the conflict-error branch unwraps the first
conflict term's object id, which panics when the merge has no terms or its
first term is absent. -/
def get_file_contents (path : Nat) (value : Option MaterializedTreeValue) :
    Option (Except BackendError (List Nat)) :=
  match value with
  | none => some (Except.ok [])
  | some (MaterializedTreeValue.file id r) =>
    match r with
    | Except.ok contents => some (Except.ok contents)
    | Except.error e => some (Except.error (BackendError.readFile path id e))
  | some (MaterializedTreeValue.fileConflict ids r) =>
    match r with
    | Except.ok buf => some (Except.ok buf)
    | Except.error e =>
      match ids.head? with
      | some (some i) => some (Except.error (BackendError.readFile path i e))
      | _ => none
  | some MaterializedTreeValue.other => some (Except.ok [])


/-! ## Notions used by the verification -/

/-- Keys-without-duplicates predicate for association lists; the state of
an embedded `HashMap` always satisfies it. -/
def keysND {α : Type} (m : List (Nat × α)) : Prop := (m.map Prod.fst).Nodup

/-- Closed form for the parent side of the propagation loop: the binding a
parent line `q` ends up with is determined by whether some matched pair
targets `q` and whether the child held that pair's line — independently of
the iteration order. -/
def movedVal (same : List (Nat × Nat)) (child parent : List (Nat × Nat)) (q : Nat) :
    Option Nat :=
  match same.find? (fun e => e.2 == q) with
  | some e =>
    match alookup child e.1 with
    | some v => some v
    | none => alookup parent q
  | none => alookup parent q

/-- Number of entries of a line map carrying original line `o` as value. -/
def cntV (m : List (Nat × Nat)) (o : Nat) : Nat := m.countP (fun e => e.2 == o)

/-- Number of entries of the original line map keyed by original line `o`. -/
def cntK (m : List (Nat × Nat)) (o : Nat) : Nat := m.countP (fun e => e.1 == o)

/-! ## Association-list lemmas -/

theorem alookup_aerase_self {α : Type} (m : List (Nat × α)) (k : Nat) :
    alookup (aerase m k) k = none := by
  induction m with
  | nil => rfl
  | cons e rest ih =>
    by_cases h : e.1 = k
    · simpa [aerase, h] using ih
    · simpa [aerase, h, alookup] using ih

theorem alookup_aerase_ne {α : Type} (m : List (Nat × α)) (k k' : Nat) (h : k' ≠ k) :
    alookup (aerase m k) k' = alookup m k' := by
  induction m with
  | nil => rfl
  | cons e rest ih =>
    by_cases he : e.1 = k
    · have hne : ¬ e.1 = k' := by
        rw [he]
        exact fun hk => h hk.symm
      simp only [aerase, alookup]
      rw [if_pos he, if_neg hne]
      exact ih
    · simp only [aerase, alookup]
      rw [if_neg he]
      by_cases he' : e.1 = k'
      · simp only [alookup]
        rw [if_pos he', if_pos he']
      · simp only [alookup]
        rw [if_neg he', if_neg he']
        exact ih

theorem alookup_append {α : Type} (m₁ m₂ : List (Nat × α)) (k : Nat) :
    alookup (m₁ ++ m₂) k =
      match alookup m₁ k with
      | some v => some v
      | none => alookup m₂ k := by
  induction m₁ with
  | nil => simp [alookup]
  | cons e rest ih =>
    by_cases h : e.1 = k
    · simp [alookup, h]
    · simp [alookup, h, ih]

theorem alookup_ainsert_self {α : Type} (m : List (Nat × α)) (k : Nat) (v : α) :
    alookup (ainsert m k v) k = some v := by
  rw [ainsert, alookup_append, alookup_aerase_self]
  simp [alookup]

theorem alookup_singleton {α : Type} (k k' : Nat) (v : α) :
    alookup [(k, v)] k' = if k = k' then some v else none := by
  simp [alookup]

theorem alookup_ainsert_ne {α : Type} (m : List (Nat × α)) (k k' : Nat) (v : α)
    (h : k' ≠ k) : alookup (ainsert m k v) k' = alookup m k' := by
  rw [ainsert, alookup_append]
  rw [alookup_aerase_ne m k k' h]
  cases hm : alookup m k' with
  | some w => rfl
  | none =>
    rw [alookup_singleton, if_neg (fun hk : k = k' => h hk.symm)]

theorem keysND_nil {α : Type} : keysND ([] : List (Nat × α)) := by
  simp [keysND]

theorem aerase_sublist {α : Type} (m : List (Nat × α)) (k : Nat) :
    (aerase m k).Sublist m := by
  induction m with
  | nil => simp [aerase]
  | cons e rest ih =>
    by_cases h : e.1 = k
    · simpa [aerase, h] using ih.cons e
    · simpa [aerase, h] using ih.cons₂ e

theorem keysND_aerase {α : Type} (m : List (Nat × α)) (k : Nat) (h : keysND m) :
    keysND (aerase m k) := by
  exact List.Nodup.sublist (List.Sublist.map Prod.fst (aerase_sublist m k)) h

theorem not_mem_keys_aerase {α : Type} (m : List (Nat × α)) (k : Nat) :
    k ∉ (aerase m k).map Prod.fst := by
  induction m with
  | nil => simp [aerase]
  | cons e rest ih =>
    by_cases h : e.1 = k
    · simp only [aerase]
      rw [if_pos h]
      exact ih
    · simp only [aerase]
      rw [if_neg h]
      simp only [List.map_cons, List.mem_cons, not_or]
      exact ⟨fun hk => h hk.symm, ih⟩

theorem keysND_ainsert {α : Type} (m : List (Nat × α)) (k : Nat) (v : α)
    (h : keysND m) : keysND (ainsert m k v) := by
  rw [keysND, ainsert, List.map_append]
  refine List.Nodup.append (keysND_aerase m k h) (by simp) ?_
  intro a ha hb
  simp only [List.map_cons, List.map_nil, List.mem_singleton] at hb
  rw [hb] at ha
  exact not_mem_keys_aerase m k ha

theorem alookup_none_of_not_mem_keys {α : Type} (m : List (Nat × α)) (k : Nat)
    (h : k ∉ m.map Prod.fst) : alookup m k = none := by
  induction m with
  | nil => rfl
  | cons e rest ih =>
    simp only [List.map_cons, List.mem_cons, not_or] at h
    simp only [alookup]
    rw [if_neg (fun he : e.1 = k => h.1 he.symm)]
    exact ih h.2

theorem mem_keys_of_alookup_some {α : Type} (m : List (Nat × α)) (k : Nat) (v : α)
    (h : alookup m k = some v) : k ∈ m.map Prod.fst := by
  induction m with
  | nil => simp [alookup] at h
  | cons e rest ih =>
    by_cases he : e.1 = k
    · simp [← he]
    · simp only [alookup] at h
      rw [if_neg he] at h
      simp only [List.map_cons, List.mem_cons]
      exact Or.inr (ih h)

/-! ## Line indexer lemmas -/

theorem splitInclusive_flatten (s : List Nat) : (splitInclusive s).flatten = s := by
  induction s with
  | nil => rfl
  | cons b rest ih =>
    by_cases hb : b = 10
    · simp only [splitInclusive]
      rw [if_pos hb, List.flatten_cons, ih, hb]
      rfl
    · simp only [splitInclusive]
      rw [if_neg hb]
      cases hr : splitInclusive rest with
      | nil =>
        have : rest = [] := by
          rw [← ih, hr]
          rfl
        simp [this]
      | cons l ls =>
        rw [hr] at ih
        simp only [List.flatten_cons] at ih ⊢
        rw [List.cons_append, ih]

theorem splitInclusive_eq_nil_iff (s : List Nat) : splitInclusive s = [] ↔ s = [] := by
  constructor
  · intro h
    have := splitInclusive_flatten s
    rw [h] at this
    simpa using this.symm
  · intro h
    rw [h]
    rfl

theorem splitInclusive_ne_nil (s : List Nat) (h : s ≠ []) :
    ∀ l ∈ splitInclusive s, l ≠ [] := by
  induction s with
  | nil => exact absurd rfl h
  | cons b rest ih =>
    intro l hl
    by_cases hb : b = 10
    · simp only [splitInclusive] at hl
      rw [if_pos hb] at hl
      rcases List.mem_cons.mp hl with h1 | h2
      · simp [h1]
      · have hrest : rest ≠ [] := by
          intro hr
          rw [hr] at h2
          simp [splitInclusive] at h2
        exact ih hrest l h2
    · simp only [splitInclusive] at hl
      rw [if_neg hb] at hl
      cases hr : splitInclusive rest with
      | nil =>
        rw [hr] at hl
        rcases List.mem_cons.mp hl with h1 | h2
        · simp [h1]
        · simp at h2
      | cons l0 ls =>
        rw [hr] at hl
        rcases List.mem_cons.mp hl with h1 | h2
        · simp [h1]
        · have hrest : rest ≠ [] := by
            intro hx
            rw [hx] at hr
            simp [splitInclusive] at hr
          exact ih hrest l (by rw [hr]; exact List.mem_cons_of_mem _ h2)

theorem getLast?_cons_of_ne_nil (b : Nat) (l : List Nat) (h : l ≠ []) :
    (b :: l).getLast? = l.getLast? := by
  cases l with
  | nil => exact absurd rfl h
  | cons c cs => simp [List.getLast?_cons_cons]

/-- Every segment other than the last one ends in the newline byte. -/
theorem splitInclusive_dropLast_newline (s : List Nat) :
    ∀ l ∈ (splitInclusive s).dropLast, l.getLast? = some 10 := by
  induction s with
  | nil => simp [splitInclusive]
  | cons b rest ih =>
    intro l hl
    by_cases hb : b = 10
    · simp only [splitInclusive] at hl
      rw [if_pos hb] at hl
      cases hr : splitInclusive rest with
      | nil =>
        rw [hr] at hl
        simp at hl
      | cons l0 ls =>
        rw [hr] at hl
        rw [List.dropLast_cons₂] at hl
        rcases List.mem_cons.mp hl with h1 | h2
        · simp [h1]
        · rw [hr] at ih
          exact ih l h2
    · simp only [splitInclusive] at hl
      rw [if_neg hb] at hl
      cases hr : splitInclusive rest with
      | nil =>
        rw [hr] at hl
        simp at hl
      | cons l0 ls =>
        rw [hr] at hl
        cases ls with
        | nil => simp at hl
        | cons l1 ls' =>
          rw [List.dropLast_cons₂] at hl
          rw [hr] at ih
          rcases List.mem_cons.mp hl with h1 | h2
          · have hrest : rest ≠ [] := by
              intro hx
              rw [hx] at hr
              simp [splitInclusive] at hr
            have hl0ne : l0 ≠ [] :=
              splitInclusive_ne_nil rest hrest l0 (by rw [hr]; exact List.mem_cons_self _ _)
            have hl0 : l0.getLast? = some 10 := by
              apply ih
              rw [List.dropLast_cons₂]
              exact List.mem_cons_self _ _
            rw [h1, getLast?_cons_of_ne_nil b l0 hl0ne]
            exact hl0
          · apply ih
            rw [List.dropLast_cons₂]
            exact List.mem_cons_of_mem _ h2

/-! ## Lemmas about draining leftover lines (`mark_lines_from_original`) -/

theorem mark_lookup (l : List (Nat × Nat)) (olm : List (Nat × Nat)) (cid o : Nat) :
    alookup (mark_lines_from_original olm cid l) o =
      if o ∈ l.map Prod.snd then some cid else alookup olm o := by
  induction l generalizing olm with
  | nil => simp [mark_lines_from_original]
  | cons e rest ih =>
    simp only [mark_lines_from_original]
    rw [ih]
    by_cases hmem : o ∈ rest.map Prod.snd
    · rw [if_pos hmem, if_pos (by simp [hmem])]
    · rw [if_neg hmem]
      by_cases he : o = e.2
      · rw [if_pos (by simp [he]), he, alookup_ainsert_self]
      · rw [if_neg (by simp [he, hmem]), alookup_ainsert_ne olm e.2 o cid he]

theorem keysND_mark (l : List (Nat × Nat)) (olm : List (Nat × Nat)) (cid : Nat)
    (h : keysND olm) : keysND (mark_lines_from_original olm cid l) := by
  induction l generalizing olm with
  | nil => exact h
  | cons e rest ih => exact ih _ (keysND_ainsert _ _ _ h)

/-! ## Lemmas about the propagation loop (`moveLines`) -/

/-- After the propagation loop the child has lost exactly the matched line
numbers, independently of the iteration order. -/
theorem moveLines_fst_lookup (same : List (Nat × Nat)) (child parent : List (Nat × Nat))
    (k : Nat) :
    alookup (moveLines same child parent).1 k =
      if k ∈ same.map Prod.fst then none else alookup child k := by
  induction same generalizing child parent with
  | nil => simp [moveLines]
  | cons e rest ih =>
    simp only [moveLines]
    cases hl : alookup child e.1 with
    | some v =>
      rw [ih]
      by_cases hmem : k ∈ rest.map Prod.fst
      · rw [if_pos hmem, if_pos (by simp [hmem])]
      · rw [if_neg hmem]
        by_cases hk : k = e.1
        · rw [if_pos (by simp [hk]), hk, alookup_aerase_self]
        · rw [if_neg (by simp [hk, hmem]), alookup_aerase_ne child e.1 k hk]
    | none =>
      rw [ih]
      by_cases hmem : k ∈ rest.map Prod.fst
      · rw [if_pos hmem, if_pos (by simp [hmem])]
      · rw [if_neg hmem]
        by_cases hk : k = e.1
        · rw [if_pos (by simp [hk]), hk, hl]
        · rw [if_neg (by simp [hk, hmem])]

/-- A parent line that no matched pair targets keeps its binding through
the propagation loop. -/
theorem moveLines_snd_lookup_not_mem (same : List (Nat × Nat))
    (child parent : List (Nat × Nat)) (q : Nat) (hq : q ∉ same.map Prod.snd) :
    alookup (moveLines same child parent).2 q = alookup parent q := by
  induction same generalizing child parent with
  | nil => rfl
  | cons e rest ih =>
    simp only [List.map_cons, List.mem_cons, not_or] at hq
    simp only [moveLines]
    cases hl : alookup child e.1 with
    | some v =>
      rw [ih _ _ hq.2, alookup_ainsert_ne parent e.2 q v hq.1]
    | none => exact ih _ _ hq.2

/-- If the matched pairs have pairwise distinct child lines and pairwise
distinct parent lines, a live child entry always lands in the parent slot
its pair names — overwriting whatever was there. -/
theorem moveLines_snd_lookup_moved (same : List (Nat × Nat))
    (child parent : List (Nat × Nat)) (c p v : Nat)
    (hfst : (same.map Prod.fst).Nodup) (hsnd : (same.map Prod.snd).Nodup)
    (hmem : (c, p) ∈ same) (hc : alookup child c = some v) :
    alookup (moveLines same child parent).2 p = some v := by
  induction same generalizing child parent with
  | nil => simp at hmem
  | cons e rest ih =>
    rcases List.mem_cons.mp hmem with h1 | h2
    · subst h1
      simp only [moveLines, hc]
      have hp : p ∉ rest.map Prod.snd := by
        simp only [List.map_cons] at hsnd
        exact (List.nodup_cons.mp hsnd).1
      rw [moveLines_snd_lookup_not_mem rest _ _ p hp]
      exact alookup_ainsert_self parent p v
    · have hefst : e.1 ∉ rest.map Prod.fst :=
        (List.nodup_cons.mp (by simpa using hfst)).1
      have hcne : c ≠ e.1 := by
        intro hce
        apply hefst
        rw [← hce]
        exact List.mem_map_of_mem Prod.fst h2
      simp only [moveLines]
      cases hl : alookup child e.1 with
      | some w =>
        apply ih (aerase child e.1) (ainsert parent e.2 w)
          (by simpa using (List.nodup_cons.mp (by simpa using hfst)).2)
          (by simpa using (List.nodup_cons.mp (by simpa using hsnd)).2) h2
        rw [alookup_aerase_ne child e.1 c hcne]
        exact hc
      | none =>
        exact ih child parent
          (by simpa using (List.nodup_cons.mp (by simpa using hfst)).2)
          (by simpa using (List.nodup_cons.mp (by simpa using hsnd)).2) h2 hc

theorem moveLines_snd_lookup (same : List (Nat × Nat)) (child parent : List (Nat × Nat))
    (q : Nat) (hfst : (same.map Prod.fst).Nodup) (hsnd : (same.map Prod.snd).Nodup) :
    alookup (moveLines same child parent).2 q = movedVal same child parent q := by
  induction same generalizing child parent with
  | nil => rfl
  | cons e rest ih =>
    simp only [List.map_cons, List.nodup_cons] at hfst hsnd
    have hfst1 := hfst.1
    have hsnd1 := hsnd.1
    by_cases hq : e.2 = q
    · have hfind : (e :: rest).find? (fun x => x.2 == q) = some e :=
        List.find?_cons_of_pos rest (by simp [hq])
      have hrest : rest.find? (fun x => x.2 == q) = none := by
        rw [List.find?_eq_none]
        intro x hx
        simp only [beq_iff_eq]
        intro hxq
        apply hsnd1
        rw [hq, ← hxq]
        exact List.mem_map_of_mem Prod.snd hx
      have hqnm : q ∉ rest.map Prod.snd := by
        intro hmm
        rcases List.mem_map.mp hmm with ⟨x, hx, hxq⟩
        apply hsnd1
        rw [hq, ← hxq]
        exact List.mem_map_of_mem Prod.snd hx
      simp only [moveLines]
      cases hl : alookup child e.1 with
      | some v =>
        rw [moveLines_snd_lookup_not_mem rest _ _ q hqnm]
        simp only [movedVal, hfind, hl]
        rw [← hq, alookup_ainsert_self]
      | none =>
        rw [ih child parent hfst.2 hsnd.2]
        simp only [movedVal, hfind, hrest, hl]
    · have hfind : (e :: rest).find? (fun x => x.2 == q) = rest.find? (fun x => x.2 == q) :=
        List.find?_cons_of_neg rest (by simp [hq])
      simp only [moveLines]
      cases hl : alookup child e.1 with
      | some v =>
        rw [ih (aerase child e.1) (ainsert parent e.2 v) hfst.2 hsnd.2]
        cases hfr : rest.find? (fun x => x.2 == q) with
        | some x =>
          have hxmem := List.mem_of_find?_eq_some hfr
          have hxne : x.1 ≠ e.1 := by
            intro hxe
            apply hfst1
            rw [← hxe]
            exact List.mem_map_of_mem Prod.fst hxmem
          simp only [movedVal, hfind, hfr]
          rw [alookup_aerase_ne child e.1 x.1 hxne]
          cases hcx : alookup child x.1 with
          | some w => rfl
          | none => exact alookup_ainsert_ne parent e.2 q v (fun h => hq h.symm)
        | none =>
          simp only [movedVal, hfind, hfr]
          exact alookup_ainsert_ne parent e.2 q v (fun h => hq h.symm)
      | none =>
        rw [ih child parent hfst.2 hsnd.2]
        simp only [movedVal, hfind]

/-- With pairwise distinct parent lines, the first matched pair targeting a
given parent line is the only one, so `find?` does not depend on the order
of the pair list. -/
theorem find?_snd_eq_of_perm (l l' : List (Nat × Nat)) (hp : l.Perm l')
    (hsnd : (l.map Prod.snd).Nodup) (q : Nat) :
    l.find? (fun e => e.2 == q) = l'.find? (fun e => e.2 == q) := by
  cases hf : l.find? (fun e => e.2 == q) with
  | none =>
    rw [List.find?_eq_none] at hf
    rw [eq_comm, List.find?_eq_none]
    intro x hx
    exact hf x (hp.mem_iff.mpr hx)
  | some e =>
    have hmem : e ∈ l := List.mem_of_find?_eq_some hf
    have hpe : e.2 = q := by simpa using List.find?_some hf
    cases hf' : l'.find? (fun x => x.2 == q) with
    | none =>
      rw [List.find?_eq_none] at hf'
      exact absurd (by simpa using hpe) (hf' e (hp.mem_iff.mp hmem))
    | some e' =>
      have hmem' : e' ∈ l := hp.mem_iff.mpr (List.mem_of_find?_eq_some hf')
      have hpe' : e'.2 = q := by simpa using List.find?_some hf'
      have : e = e' :=
        List.inj_on_of_nodup_map hsnd hmem hmem' (by rw [hpe, hpe'])
      rw [this]

/-- The projector depends on the original line map only through lookups. -/
theorem convert_congr (olm olm' : List (Nat × Nat))
    (h : ∀ k, alookup olm k = alookup olm' k) (idx : Nat) (ls : List (List Nat)) :
    convert_to_results olm idx ls = convert_to_results olm' idx ls := by
  induction ls generalizing idx with
  | nil => rfl
  | cons line rest ih =>
    simp only [convert_to_results, h idx]
    rw [ih (idx + 1)]

/-! ## Ownership counting lemmas -/

theorem aerase_of_not_mem {α : Type} (m : List (Nat × α)) (k : Nat)
    (h : k ∉ m.map Prod.fst) : aerase m k = m := by
  induction m with
  | nil => rfl
  | cons e rest ih =>
    simp only [List.map_cons, List.mem_cons, not_or] at h
    simp only [aerase]
    rw [if_neg (fun he : e.1 = k => h.1 he.symm), ih h.2]

theorem cntV_aerase_le (m : List (Nat × Nat)) (k o : Nat) :
    cntV (aerase m k) o ≤ cntV m o :=
  List.Sublist.countP_le _ (aerase_sublist m k)

theorem cntV_aerase_of_lookup (m : List (Nat × Nat)) (k v o : Nat)
    (hnd : keysND m) (hl : alookup m k = some v) :
    cntV m o = cntV (aerase m k) o + (if v = o then 1 else 0) := by
  induction m with
  | nil => simp [alookup] at hl
  | cons e rest ih =>
    have hnd' : keysND rest := (List.nodup_cons.mp (by simpa [keysND] using hnd)).2
    by_cases he : e.1 = k
    · simp only [alookup] at hl
      rw [if_pos he] at hl
      have hrest : aerase rest k = rest := by
        apply aerase_of_not_mem
        rw [← he]
        exact (List.nodup_cons.mp (by simpa [keysND] using hnd)).1
      injection hl with hv
      simp only [aerase]
      rw [if_pos he, hrest]
      simp only [cntV, List.countP_cons, beq_iff_eq, hv]
    · simp only [alookup] at hl
      rw [if_neg he] at hl
      simp only [aerase]
      rw [if_neg he]
      simp only [cntV, List.countP_cons] at *
      rw [ih hnd' hl]
      omega

theorem cntV_ainsert (m : List (Nat × Nat)) (k v o : Nat) :
    cntV (ainsert m k v) o = cntV (aerase m k) o + (if v = o then 1 else 0) := by
  simp only [ainsert, cntV, List.countP_append, List.countP_cons, List.countP_nil]
  simp [beq_iff_eq]

theorem cntK_pos_of_lookup (m : List (Nat × Nat)) (o : Nat) (v : Nat)
    (h : alookup m o = some v) : 0 < cntK m o := by
  induction m with
  | nil => simp [alookup] at h
  | cons e rest ih =>
    by_cases he : e.1 = o
    · simp only [cntK]
      rw [List.countP_cons]
      simp [he]
    · simp only [alookup] at h
      rw [if_neg he] at h
      simp only [cntK, List.countP_cons] at *
      have := ih h
      omega

theorem cntK_eq_zero_of_lookup_none (m : List (Nat × Nat)) (o : Nat)
    (h : alookup m o = none) : cntK m o = 0 := by
  induction m with
  | nil => rfl
  | cons e rest ih =>
    by_cases he : e.1 = o
    · simp only [alookup] at h
      rw [if_pos he] at h
      cases h
    · simp only [alookup] at h
      rw [if_neg he] at h
      simp only [cntK, List.countP_cons] at *
      simp [he, ih h]

theorem cntK_le_one (m : List (Nat × Nat)) (o : Nat) (hnd : keysND m) :
    cntK m o ≤ 1 := by
  induction m with
  | nil => simp [cntK]
  | cons e rest ih =>
    have h1 : e.1 ∉ rest.map Prod.fst :=
      (List.nodup_cons.mp (by simpa [keysND] using hnd)).1
    have hnd' : keysND rest := (List.nodup_cons.mp (by simpa [keysND] using hnd)).2
    simp only [cntK, List.countP_cons]
    by_cases he : e.1 = o
    · have : cntK rest o = 0 := by
        apply cntK_eq_zero_of_lookup_none
        apply alookup_none_of_not_mem_keys
        rw [← he]
        exact h1
      simp only [cntK] at this
      simp [he, this]
    · have := ih hnd'
      simpa [cntK, List.countP_cons, he] using this

theorem cntV_pos_of_mem_snd (l : List (Nat × Nat)) (o : Nat)
    (h : o ∈ l.map Prod.snd) : 0 < cntV l o := by
  rcases List.mem_map.mp h with ⟨x, hx, hxo⟩
  simp only [cntV]
  rw [List.countP_pos_iff]
  exact ⟨x, hx, by simp [hxo]⟩

/-- The propagation loop never increases the number of owners of an
original line: counting occurrences as a value in the child, in the
parent, and `rest` owners elsewhere, the bound `≤ 1` is preserved.
`rest` abstracts all other live Sources and the original line map. -/
theorem moveLines_ownership (same : List (Nat × Nat)) :
    ∀ (child parent : List (Nat × Nat)) (rest : Nat → Nat),
    keysND child → keysND parent →
    (∀ o, cntV child o + cntV parent o + rest o ≤ 1) →
    keysND (moveLines same child parent).1 ∧ keysND (moveLines same child parent).2 ∧
      ∀ o, cntV (moveLines same child parent).1 o +
        cntV (moveLines same child parent).2 o + rest o ≤ 1 := by
  induction same with
  | nil =>
    intro child parent rest hc hp hb
    exact ⟨hc, hp, hb⟩
  | cons e t ih =>
    intro child parent rest hc hp hb
    simp only [moveLines]
    cases hl : alookup child e.1 with
    | none => exact ih child parent rest hc hp hb
    | some v =>
      apply ih
      · exact keysND_aerase child e.1 hc
      · exact keysND_ainsert parent e.2 v hp
      · intro o
        have hch := cntV_aerase_of_lookup child e.1 v o hc hl
        have hpi := cntV_ainsert parent e.2 v o
        have hple := cntV_aerase_le parent e.2 o
        have h1 := hb o
        by_cases hvo : v = o
        · rw [if_pos hvo] at hch hpi
          omega
        · rw [if_neg hvo] at hch hpi
          omega

/-- Draining leftover lines into the original line map keeps each original
line's owner count at most one: after the drain the child is dropped and
each of its lines is keyed in the original line map. -/
theorem mark_ownership (l : List (Nat × Nat)) (olm : List (Nat × Nat)) (cid : Nat)
    (rest : Nat → Nat) (hnd : keysND olm)
    (hb : ∀ o, cntV l o + cntK olm o + rest o ≤ 1) :
    keysND (mark_lines_from_original olm cid l) ∧
      ∀ o, cntK (mark_lines_from_original olm cid l) o + rest o ≤ 1 := by
  refine ⟨keysND_mark l olm cid hnd, ?_⟩
  intro o
  have hnd' := keysND_mark l olm cid hnd
  have hle := cntK_le_one _ o hnd'
  by_cases hmem : o ∈ l.map Prod.snd
  · have h1 := cntV_pos_of_mem_snd l o hmem
    have h2 := hb o
    omega
  · have hlook : alookup (mark_lines_from_original olm cid l) o = alookup olm o := by
      rw [mark_lookup, if_neg hmem]
    cases ho : alookup olm o with
    | none =>
      have h0 : cntK (mark_lines_from_original olm cid l) o = 0 :=
        cntK_eq_zero_of_lookup_none _ o (by rw [hlook, ho])
      have h2 := hb o
      omega
    | some c =>
      have h1 : 0 < cntK olm o := cntK_pos_of_lookup olm o c ho
      have h2 := hb o
      omega

/-! ## Missing edges are skipped entirely -/

theorem processEdges_missing (repoText : Nat → List Nat)
    (dbl : List Nat → List Nat → List DiffHunk) (ctext : List Nat)
    (edges : List GraphEdge) (st : List (Nat × Nat) × CSMap)
    (h : ∀ e ∈ edges, e.edge_type = GraphEdgeType.missing) :
    processEdges repoText dbl ctext edges st = st := by
  induction edges generalizing st with
  | nil => rfl
  | cons e rest ih =>
    have he : e.edge_type = GraphEdgeType.missing := h e (List.mem_cons_self _ _)
    simp only [processEdges, he]
    exact ih st fun x hx => h x (List.mem_cons_of_mem _ hx)

/-! ## The matcher's output is strictly increasing in both coordinates -/

theorem same_line_map_go_bounds (hunks : List DiffHunk) :
    ∀ (ca cb : Nat) (p : Nat × Nat), p ∈ same_line_map_go hunks ca cb →
      ca ≤ p.1 ∧ cb ≤ p.2 := by
  induction hunks with
  | nil =>
    intro ca cb p hp
    simp [same_line_map_go] at hp
  | cons h t ih =>
    intro ca cb p hp
    cases hk : h.kind with
    | matching =>
      simp only [same_line_map_go, hk] at hp
      rcases List.mem_append.mp hp with h1 | h2
      · rcases List.mem_map.mp h1 with ⟨k, hk2, he⟩
        rw [← he]
        constructor <;> simp
      · have := ih _ _ _ h2
        omega
    | different =>
      simp only [same_line_map_go, hk] at hp
      have := ih _ _ _ hp
      omega

theorem same_line_map_go_rel (hunks : List DiffHunk) :
    ∀ (ca cb : Nat) (p q : Nat × Nat), p ∈ same_line_map_go hunks ca cb →
      q ∈ same_line_map_go hunks ca cb → (p.1 < q.1 ↔ p.2 < q.2) := by
  induction hunks with
  | nil =>
    intro ca cb p q hp _
    simp [same_line_map_go] at hp
  | cons h t ih =>
    intro ca cb p q hp hq
    cases hk : h.kind with
    | matching =>
      simp only [same_line_map_go, hk] at hp hq
      rcases List.mem_append.mp hp with hp1 | hp2 <;>
        rcases List.mem_append.mp hq with hq1 | hq2
      · rcases List.mem_map.mp hp1 with ⟨k1, hk1, he1⟩
        rcases List.mem_map.mp hq1 with ⟨k2, hk2, he2⟩
        rw [← he1, ← he2]
        simp only
        omega
      · rcases List.mem_map.mp hp1 with ⟨k1, hk1, he1⟩
        have hkb := same_line_map_go_bounds t _ _ q hq2
        have hk1n := List.mem_range.mp hk1
        rw [← he1]
        simp only
        omega
      · rcases List.mem_map.mp hq1 with ⟨k2, hk2, he2⟩
        have hkb := same_line_map_go_bounds t _ _ p hp2
        have hk2n := List.mem_range.mp hk2
        rw [← he2]
        simp only
        omega
      · exact ih _ _ _ _ hp2 hq2
    | different =>
      simp only [same_line_map_go, hk] at hp hq
      exact ih _ _ _ _ hp hq

theorem same_line_map_go_pairwise (hunks : List DiffHunk) :
    ∀ (ca cb : Nat), (same_line_map_go hunks ca cb).Pairwise
      (fun p q => p.1 < q.1 ∧ p.2 < q.2) := by
  induction hunks with
  | nil =>
    intro ca cb
    simp [same_line_map_go]
  | cons h t ih =>
    intro ca cb
    cases hk : h.kind with
    | matching =>
      simp only [same_line_map_go, hk]
      rw [List.pairwise_append]
      refine ⟨?_, ih _ _, ?_⟩
      · rw [List.pairwise_map]
        refine List.Pairwise.imp ?_ (List.pairwise_lt_range _)
        intro a b hab
        simp only
        omega
      · intro p hp q hq
        rcases List.mem_map.mp hp with ⟨k, hk2, he⟩
        have hkb := same_line_map_go_bounds t _ _ q hq
        have hkn := List.mem_range.mp hk2
        rw [← he]
        simp only
        omega
    | different =>
      simp only [same_line_map_go, hk]
      exact ih _ _

theorem get_same_line_map_fst_nodup (hunks : List DiffHunk) :
    ((get_same_line_map hunks).map Prod.fst).Nodup := by
  have hp := same_line_map_go_pairwise hunks 0 0
  rw [List.Nodup, List.pairwise_map]
  exact hp.imp fun hab => Nat.ne_of_lt hab.1

theorem get_same_line_map_snd_nodup (hunks : List DiffHunk) :
    ((get_same_line_map hunks).map Prod.snd).Nodup := by
  have hp := same_line_map_go_pairwise hunks 0 0
  rw [List.Nodup, List.pairwise_map]
  exact hp.imp fun hab => Nat.ne_of_lt hab.2

/-! ## Projector lemmas -/

theorem convert_some_map_snd (olm : List (Nat × Nat)) :
    ∀ (idx : Nat) (ls : List (List Nat)) (r : List (Nat × List Nat)),
      convert_to_results olm idx ls = some r → r.map Prod.snd = ls := by
  intro idx ls
  induction ls generalizing idx with
  | nil =>
    intro r h
    simp only [convert_to_results] at h
    injection h with h
    rw [← h]
    rfl
  | cons line restl ih =>
    intro r h
    simp only [convert_to_results] at h
    cases hl : alookup olm idx with
    | none =>
      rw [hl] at h
      cases h
    | some cid =>
      rw [hl] at h
      cases hr : convert_to_results olm (idx + 1) restl with
      | none =>
        rw [hr] at h
        cases h
      | some r' =>
        rw [hr] at h
        injection h with h
        rw [← h]
        simp only [List.map_cons]
        rw [ih (idx + 1) r' hr]

theorem convert_some_length (olm : List (Nat × Nat)) (idx : Nat) (ls : List (List Nat))
    (r : List (Nat × List Nat)) (h : convert_to_results olm idx ls = some r) :
    r.length = ls.length := by
  have := convert_some_map_snd olm idx ls r h
  rw [← this, List.length_map]

theorem cntV_le_length (m : List (Nat × Nat)) (o : Nat) : cntV m o ≤ m.length :=
  List.countP_le_length _

/-! ## Claim theorems -/

/-- C1: the claim states that when a matched `(child_line, parent_line)`
pair would write to a parent slot that already holds an entry, the
pre-existing parent entry is kept and the child entry dropped (first
writer wins). Refuted: the loop ends in `HashMap::insert`, which
overwrites. Concretely, with child line map `{0 ↦ 5}`, parent line map
`{3 ↦ 7}` and matched pair `(0, 3)`, the loop leaves the parent mapping
line 3 to original line 5 — the pre-existing entry 7 is overwritten. -/
theorem C1_counterexample :
    moveLines [(0, 3)] [(0, 5)] [(3, 7)] = ([], [(3, 5)]) ∧
    alookup (moveLines [(0, 3)] [(0, 5)] [(3, 7)]).2 3 ≠ some 7 := by
  decide

/-- C1 (amended): last writer wins. Whenever the matcher pairs child line
`c` with parent line `p` and the child still holds `c` with original line
`v`, the propagation loop leaves the parent mapping `p` to `v` — any
pre-existing parent entry at `p` is overwritten and lost — and removes the
child entry at `c`. -/
theorem C1_theorem (hunks : List DiffHunk) (child parent : List (Nat × Nat))
    (c p v : Nat) (hmem : (c, p) ∈ get_same_line_map hunks)
    (hc : alookup child c = some v) :
    alookup (moveLines (get_same_line_map hunks) child parent).2 p = some v ∧
    alookup (moveLines (get_same_line_map hunks) child parent).1 c = none := by
  constructor
  · exact moveLines_snd_lookup_moved _ child parent c p v
      (get_same_line_map_fst_nodup hunks) (get_same_line_map_snd_nodup hunks) hmem hc
  · rw [moveLines_fst_lookup]
    rw [if_pos (List.mem_map_of_mem Prod.fst hmem)]

/-- C1 witness: the amended statement at a one-line matching hunk with
child `{0 ↦ 5}` and parent `{0 ↦ 7}`. -/
theorem C1_witness :
    alookup (moveLines (get_same_line_map [⟨HunkKind.matching, [10], [10]⟩])
      [(0, 5)] [(0, 7)]).2 0 = some 5 ∧
    alookup (moveLines (get_same_line_map [⟨HunkKind.matching, [10], [10]⟩])
      [(0, 5)] [(0, 7)]).1 0 = none :=
  C1_theorem [⟨HunkKind.matching, [10], [10]⟩] [(0, 5)] [(0, 7)] 0 0 5
    (by decide) (by decide)

/-- C2: the claim states that when the revset driver is exhausted while
original lines are still held in live Sources, a final pass attributes
those lines to the deepest commit holding them and a complete result is
returned. Refuted: no such pass exists. With a one-line file at starting
commit 0 and a driver that yields only commit 0, whose direct parent edge
targets commit 7 that is never yielded, the line is propagated to commit
7's live Source, the driver is exhausted, and the engine fails (the
`unwrap` in `convert_to_results` panics, modelled as `none`) instead of
returning a complete result. The second conjunct exhibits the live Source
holding the line after commit 0 was processed. -/
theorem C2_counterexample :
    get_annotation_for_file (fun c => if c = 0 ∨ c = 7 then [97, 10] else []) dblId
      [(0, [⟨7, GraphEdgeType.direct⟩])] 0 = none ∧
    alookup (process_commit (fun c => if c = 0 ∨ c = 7 then [97, 10] else []) dblId []
      (get_initial_commit_line_map 0 [97, 10] 1) 0 [⟨7, GraphEdgeType.direct⟩]).2 7 =
      some ⟨[(0, 0)], [97, 10]⟩ := by
  decide

/-- C2 (amended): leftover lines are attributed to the deepest commit
during that commit's own visit, not by a final pass: when a visited commit
holds a Source and all its parent edges are `Missing` (the deepest
relevant commit), every original line it still holds is recorded in the
original line map as originating at that commit. -/
theorem C2_theorem (repoText : Nat → List Nat) (dbl : List Nat → List Nat → List DiffHunk)
    (olm : List (Nat × Nat)) (csm : CSMap) (cid : Nat) (edges : List GraphEdge)
    (src : Source) (hsrc : alookup csm cid = some src)
    (hmiss : ∀ e ∈ edges, e.edge_type = GraphEdgeType.missing) :
    ∀ k o, (k, o) ∈ src.line_map →
      alookup (process_commit repoText dbl olm csm cid edges).1 o = some cid := by
  intro k o hmem
  simp only [process_commit, hsrc]
  rw [processEdges_missing repoText dbl src.text edges _ hmiss]
  rw [mark_lookup]
  rw [if_pos (List.mem_map_of_mem Prod.snd hmem)]

/-- C2 witness: a root commit 4 holding original line 2, with one missing
parent edge, attributes line 2 to itself. -/
theorem C2_witness :
    alookup (process_commit (fun _ => []) dblId [] [(4, ⟨[(0, 2)], [120, 10]⟩)] 4
      [⟨9, GraphEdgeType.missing⟩]).1 2 = some 4 :=
  C2_theorem (fun _ => []) dblId [] [(4, ⟨[(0, 2)], [120, 10]⟩)] 4
    [⟨9, GraphEdgeType.missing⟩] ⟨[(0, 2)], [120, 10]⟩ (by decide) (by decide) 0 2 (by decide)

/-- C3: the claim states that at every point each original line has
exactly one owner. Refuted in the "exactly" direction: a collision during
propagation drops the pre-existing owner, leaving the line with no owner
at all. Before the step, original line 1 has exactly one owner (the
parent's entry); after the matched pair `(0, 1)` moves the child's
original line 0 onto parent line 1, line 1 has zero owners. -/
theorem C3_counterexample :
    cntV [(0, 0)] 1 + cntV [(1, 1)] 1 = 1 ∧
    cntV (moveLines [(0, 1)] [(0, 0)] [(1, 1)]).1 1 +
      cntV (moveLines [(0, 1)] [(0, 0)] [(1, 1)]).2 1 = 0 := by
  decide

/-- C3 (amended): each original line has at most one owner, and this bound
is preserved by every propagation step and every draining step. The ghost
function `rest` counts the line's owners in all other live Sources and (for
propagation) in the original line map, so the two statements cover the
whole engine state. -/
theorem C3_theorem :
    (∀ (same child parent : List (Nat × Nat)) (rest : Nat → Nat),
      keysND child → keysND parent →
      (∀ o, cntV child o + cntV parent o + rest o ≤ 1) →
      ∀ o, cntV (moveLines same child parent).1 o +
        cntV (moveLines same child parent).2 o + rest o ≤ 1) ∧
    (∀ (l olm : List (Nat × Nat)) (cid : Nat) (rest : Nat → Nat),
      keysND olm →
      (∀ o, cntV l o + cntK olm o + rest o ≤ 1) →
      ∀ o, cntK (mark_lines_from_original olm cid l) o + rest o ≤ 1) := by
  constructor
  · intro same child parent rest hc hp hb
    exact (moveLines_ownership same child parent rest hc hp hb).2.2
  · intro l olm cid rest hnd hb
    exact (mark_ownership l olm cid rest hnd hb).2

/-- C3 witness: both preservation statements applied at concrete states. -/
theorem C3_witness :
    cntV (moveLines [(0, 0)] [] []).1 3 + cntV (moveLines [(0, 0)] [] []).2 3 + 0 ≤ 1 ∧
    cntK (mark_lines_from_original [] 5 [(0, 0)]) 3 + 0 ≤ 1 := by
  constructor
  · exact C3_theorem.1 [(0, 0)] [] [] (fun _ => 0) keysND_nil keysND_nil
      (fun o => by simp [cntV]) 3
  · refine C3_theorem.2 [(0, 0)] [] 5 (fun _ => 0) keysND_nil (fun o => ?_) 3
    have h := cntV_le_length [(0, 0)] o
    simp only [cntK, List.countP_nil, List.length_cons, List.length_nil] at h ⊢
    omega

/-- C4: the claim states that `get_annotation_for_file` always either
returns a complete `AnnotateResults` with exactly `N₀` entries or returns
an error, never anything else. The code violates this intent: on the
diamond history `A → {B, C} → D` defined above (driver order `D, C, B,
A`), commit `C`'s propagation to `A` overwrites the attribution entry that
`B`'s propagation will claim back, original line 2 of `D` loses its owner,
and the call panics on the `unwrap` in `convert_to_results` (modelled as
`none`) — neither a complete result nor an error. -/
theorem C4_theorem :
    get_annotation_for_file repoDiamond dblDiamond nodesDCBA 3 = none := by
  decide

/-- C5: content preservation. Whenever `get_annotation_for_file` returns a
result, the concatenated `line_bytes` of its entries reproduce the
starting file exactly, the entries are the starting file's lines in file
order, and every line except possibly the last retains its trailing
newline. -/
theorem C5_theorem (repoText : Nat → List Nat) (dbl : List Nat → List Nat → List DiffHunk)
    (nodes : List (Nat × List GraphEdge)) (start : Nat) (r : List (Nat × List Nat))
    (h : get_annotation_for_file repoText dbl nodes start = some r) :
    (r.map Prod.snd).flatten = repoText start ∧
    r.map Prod.snd = splitInclusive (repoText start) ∧
    ∀ l ∈ (r.map Prod.snd).dropLast, l.getLast? = some 10 := by
  simp only [get_annotation_for_file] at h
  have h2 := convert_some_map_snd _ _ _ _ h
  refine ⟨?_, h2, ?_⟩
  · rw [h2, splitInclusive_flatten]
  · rw [h2]
    exact splitInclusive_dropLast_newline _

/-- C5 witness: annotating `"x\ny"` at a root commit returns its two lines
in order, the first with its newline, the last without. -/
theorem C5_witness :
    (([(5, [120, 10]), (5, [121])] : List (Nat × List Nat)).map Prod.snd).flatten = repoXY 5 ∧
    ([(5, [120, 10]), (5, [121])] : List (Nat × List Nat)).map Prod.snd =
      splitInclusive (repoXY 5) ∧
    ∀ l ∈ (([(5, [120, 10]), (5, [121])] : List (Nat × List Nat)).map Prod.snd).dropLast,
      l.getLast? = some 10 :=
  C5_theorem repoXY dblId nodesSingle 5 [(5, [120, 10]), (5, [121])] (by decide)

/-- C6: the line-pair matcher returns an order-preserving partial
injection: for any hunk list and any two emitted pairs, the current-side
indices compare strictly exactly when the parent-side indices do, and
equality on either side forces equality on the other. -/
theorem C6_theorem (hunks : List DiffHunk) (p q : Nat × Nat)
    (hp : p ∈ get_same_line_map hunks) (hq : q ∈ get_same_line_map hunks) :
    (p.1 < q.1 ↔ p.2 < q.2) ∧ (p.1 = q.1 → p.2 = q.2) ∧ (p.2 = q.2 → p.1 = q.1) := by
  have h1 := same_line_map_go_rel hunks 0 0 p q hp hq
  have h2 := same_line_map_go_rel hunks 0 0 q p hq hp
  exact ⟨h1, fun _ => by omega, fun _ => by omega⟩

/-- C6 witness: the pairs `(0, 0)` and `(1, 1)` of a two-line matching
hunk. -/
theorem C6_witness :
    (((0, 0) : Nat × Nat).1 < ((1, 1) : Nat × Nat).1 ↔
      ((0, 0) : Nat × Nat).2 < ((1, 1) : Nat × Nat).2) ∧
    (((0, 0) : Nat × Nat).1 = ((1, 1) : Nat × Nat).1 →
      ((0, 0) : Nat × Nat).2 = ((1, 1) : Nat × Nat).2) ∧
    (((0, 0) : Nat × Nat).2 = ((1, 1) : Nat × Nat).2 →
      ((0, 0) : Nat × Nat).1 = ((1, 1) : Nat × Nat).1) :=
  C6_theorem [⟨HunkKind.matching, [10, 10], [10, 10]⟩] (0, 0) (1, 1)
    (by decide) (by decide)

/-- C7: annotating a path that is absent at the starting commit — i.e.
whenever the starting buffer has zero lines — returns empty results and no
error. -/
theorem C7_theorem (repoText : Nat → List Nat) (dbl : List Nat → List Nat → List DiffHunk)
    (nodes : List (Nat × List GraphEdge)) (start : Nat)
    (h : (splitInclusive (repoText start)).length = 0) :
    get_annotation_for_file repoText dbl nodes start = some [] := by
  have hnil : splitInclusive (repoText start) = [] := List.length_eq_zero.mp h
  simp only [get_annotation_for_file, hnil]
  rfl

/-- C7 witness: an absent path (empty contents everywhere) annotates to
empty results. -/
theorem C7_witness :
    get_annotation_for_file (fun _ => []) dblId [] 0 = some [] :=
  C7_theorem (fun _ => []) dblId [] 0 (by decide)

/-- C8: on a tree value that is a conflict over file contents the loader
returns the materialised conflict byte stream, and when materialisation
fails it returns a `ReadFile` backend error carrying the path and the
object id of the first conflict term. -/
theorem C8_theorem (path : Nat) (ids : List (Option Nat)) (buf : List Nat)
    (e : String) (i : Nat) :
    (get_file_contents path
        (some (MaterializedTreeValue.fileConflict ids (Except.ok buf))) =
      some (Except.ok buf)) ∧
    (ids.head? = some (some i) →
      get_file_contents path
          (some (MaterializedTreeValue.fileConflict ids (Except.error e))) =
        some (Except.error (BackendError.readFile path i e))) := by
  constructor
  · rfl
  · intro h
    simp only [get_file_contents, h]

/-- C8 witness: a conflict whose materialisation fails with first term id
6 yields the `ReadFile` error with path 4 and id 6. -/
theorem C8_witness :
    get_file_contents 4
        (some (MaterializedTreeValue.fileConflict [some 6, none] (Except.error "io"))) =
      some (Except.error (BackendError.readFile 4 6 "io")) :=
  (C8_theorem 4 [some 6, none] [] "io" 6).2 (by decide)

/-- C9: determinism despite unordered hash maps. Every place the engine
iterates a hash map, the outcome is independent of the iteration order:
the propagation loop yields extensionally equal child and parent maps for
any two permutations of the matcher's entry list (whose key sets are
duplicate-free); the drain into the original line map is
permutation-invariant; and the projector depends on the original line map
only through lookups. Hence two runs produce identical results. -/
theorem C9_theorem :
    (∀ (same same' child parent : List (Nat × Nat)), same.Perm same' →
      (same.map Prod.fst).Nodup → (same.map Prod.snd).Nodup →
      ∀ k, alookup (moveLines same child parent).1 k =
          alookup (moveLines same' child parent).1 k ∧
        alookup (moveLines same child parent).2 k =
          alookup (moveLines same' child parent).2 k) ∧
    (∀ (l l' olm : List (Nat × Nat)) (cid : Nat), l.Perm l' →
      ∀ o, alookup (mark_lines_from_original olm cid l) o =
        alookup (mark_lines_from_original olm cid l') o) ∧
    (∀ (olm olm' : List (Nat × Nat)), (∀ k, alookup olm k = alookup olm' k) →
      ∀ (idx : Nat) (ls : List (List Nat)),
        convert_to_results olm idx ls = convert_to_results olm' idx ls) := by
  refine ⟨?_, ?_, ?_⟩
  · intro same same' child parent hperm hfst hsnd k
    have hfst' : (same'.map Prod.fst).Nodup := ((hperm.map Prod.fst).nodup_iff).mp hfst
    have hsnd' : (same'.map Prod.snd).Nodup := ((hperm.map Prod.snd).nodup_iff).mp hsnd
    constructor
    · rw [moveLines_fst_lookup, moveLines_fst_lookup]
      by_cases hk : k ∈ same.map Prod.fst
      · rw [if_pos hk, if_pos ((hperm.map Prod.fst).mem_iff.mp hk)]
      · rw [if_neg hk, if_neg (fun hk' => hk ((hperm.map Prod.fst).mem_iff.mpr hk'))]
    · rw [moveLines_snd_lookup _ _ _ _ hfst hsnd, moveLines_snd_lookup _ _ _ _ hfst' hsnd']
      simp only [movedVal]
      rw [find?_snd_eq_of_perm same same' hperm hsnd k]
  · intro l l' olm cid hperm o
    rw [mark_lookup, mark_lookup]
    by_cases hm : o ∈ l.map Prod.snd
    · rw [if_pos hm, if_pos ((hperm.map Prod.snd).mem_iff.mp hm)]
    · rw [if_neg hm, if_neg (fun hm' => hm ((hperm.map Prod.snd).mem_iff.mpr hm'))]
  · intro olm olm' h idx ls
    exact convert_congr olm olm' h idx ls

/-- C9 witness: the propagation loop run over two orders of the same entry
list gives the same lookups. -/
theorem C9_witness :
    alookup (moveLines [(0, 1), (2, 3)] [(0, 9), (2, 8)] []).1 3 =
      alookup (moveLines [(2, 3), (0, 1)] [(0, 9), (2, 8)] []).1 3 ∧
    alookup (moveLines [(0, 1), (2, 3)] [(0, 9), (2, 8)] []).2 3 =
      alookup (moveLines [(2, 3), (0, 1)] [(0, 9), (2, 8)] []).2 3 :=
  C9_theorem.1 [(0, 1), (2, 3)] [(2, 3), (0, 1)] [(0, 9), (2, 8)] []
    (by decide) (by decide) (by decide) 3

/-- C10: the claim states the two `unwrap`s are unreachable when the
collaborators meet their contracts. Refuted for the first one: on the
diamond history `A → {B, C} → D` (driver order `D, B, C, A`, each diff
being the unique minimal line diff of its pair, as the well-formedness
conjuncts certify), the propagation collision drops original line 0's
attribution and `convert_to_results` reaches
`original_line_map.get(&0).unwrap()` on a missing key — the run panics,
modelled as `none`. -/
theorem C10_theorem :
    get_annotation_for_file repoDiamond dblDiamond nodesDBCA 3 = none ∧
    HunksWf tD tB (dblDiamond tD tB) ∧ HunksWf tD tC (dblDiamond tD tC) ∧
    HunksWf tB tA (dblDiamond tB tA) ∧ HunksWf tC tA (dblDiamond tC tA) := by
  decide

end Annotate
